import Mathlib

/-!
Verification of the go-ansiparser tokenizer (StringTokenizer.go, ansiparser.go
and the batch ASCII parser) against its natural-language specification.

Go strings are modelled as lists of byte values (`GoStr`); Go's fallible
string indexing and slicing are modelled with `Option`, where `none` stands
for a runtime panic (slice bounds out of range).
-/

namespace Ansi

/-- A Go string, modelled as its list of bytes. -/
abbrev GoStr := List Nat

/-- Go string slicing `s[lo:hi]`: defined exactly when `lo ≤ hi ≤ len s`;
`none` models the runtime panic `slice bounds out of range`. -/
def goSlice (s : GoStr) (lo hi : Nat) : Option GoStr :=
  if lo ≤ hi ∧ hi ≤ s.length then some ((s.drop lo).take (hi - lo)) else none

/-- The guard `i < len(s) && p(s[i])` of the scanning loops. -/
def scanCond (p : Nat → Bool) (s : GoStr) (i : Nat) : Bool :=
  (s[i]?.map p).getD false

theorem scanCond_some {p : Nat → Bool} {s : GoStr} {i b : Nat} (h : s[i]? = some b) :
    scanCond p s i = p b := by
  simp [scanCond, h]

theorem scanCond_none {p : Nat → Bool} {s : GoStr} {i : Nat} (h : s[i]? = none) :
    scanCond p s i = false := by
  simp [scanCond, h]

theorem scanCond_lt_length {p : Nat → Bool} {s : GoStr} {i : Nat}
    (h : scanCond p s i = true) : i < s.length := by
  by_contra hge
  have : s[i]? = none := List.getElem?_eq_none (by omega)
  rw [scanCond_none this] at h
  cases h

/-- Fuel-driven variant of the scanning loops `for i < len(str) && p(str[i]) { i++ }`.
The fuel is always instantiated with `s.length - i`, which is exact because the
loop advances one byte at a time. -/
def scanWhileAux (p : Nat → Bool) (s : GoStr) : Nat → Nat → Nat
  | 0, i => i
  | fuel + 1, i => if scanCond p s i then scanWhileAux p s fuel (i + 1) else i

/-- The loop `for i < len(str) && p(str[i]) { i++ }` starting at `i`. -/
def scanWhile (p : Nat → Bool) (s : GoStr) (i : Nat) : Nat :=
  scanWhileAux p s (s.length - i) i

theorem scanWhile_eq (p : Nat → Bool) (s : GoStr) (i : Nat) :
    scanWhile p s i = if scanCond p s i then scanWhile p s (i + 1) else i := by
  unfold scanWhile
  rcases hf : s.length - i with _ | k
  · have hi : s.length ≤ i := by omega
    have hnone : s[i]? = none := List.getElem?_eq_none hi
    rw [scanCond_none hnone]
    simp [scanWhileAux]
  · have hk : s.length - (i + 1) = k := by omega
    simp only [scanWhileAux, hk]

theorem scanWhile_ge (p : Nat → Bool) (s : GoStr) (i : Nat) : i ≤ scanWhile p s i := by
  unfold scanWhile
  generalize s.length - i = fuel
  induction fuel generalizing i with
  | zero => simp [scanWhileAux]
  | succ k ih =>
    simp only [scanWhileAux]
    by_cases hc : scanCond p s i
    · simp only [hc, if_true]
      exact Nat.le_trans (Nat.le_succ i) (ih (i + 1))
    · simp [hc]

theorem scanWhileAux_le (p : Nat → Bool) (s : GoStr) (fuel i : Nat) :
    scanWhileAux p s fuel i ≤ i + fuel := by
  induction fuel generalizing i with
  | zero => simp [scanWhileAux]
  | succ k ih =>
    simp only [scanWhileAux]
    by_cases hc : scanCond p s i
    · simp only [hc, if_true]
      have := ih (i + 1)
      omega
    · simp [hc]

theorem scanWhile_le (p : Nat → Bool) (s : GoStr) (i : Nat) (h : i ≤ s.length) :
    scanWhile p s i ≤ s.length := by
  have := scanWhileAux_le p s (s.length - i) i
  unfold scanWhile
  omega

/-- At the stopping position the loop guard fails. -/
theorem scanWhile_stop_cond (p : Nat → Bool) (s : GoStr) (i : Nat) :
    scanCond p s (scanWhile p s i) = false := by
  unfold scanWhile
  generalize hgen : s.length - i = fuel
  have hge : s.length ≤ i + fuel := by omega
  clear hgen
  induction fuel generalizing i with
  | zero =>
    simp only [scanWhileAux]
    exact scanCond_none (List.getElem?_eq_none (by omega))
  | succ k ih =>
    simp only [scanWhileAux]
    by_cases hc : scanCond p s i
    · simp only [hc, if_true]
      exact ih (i + 1) (by omega)
    · rw [if_neg hc]
      simpa using hc

/-- At the stopping position the predicate fails on the byte there (if any). -/
theorem scanWhile_stop_prop (p : Nat → Bool) (s : GoStr) (i : Nat) :
    ∀ b, s[scanWhile p s i]? = some b → p b = false := by
  intro b hb
  have := scanWhile_stop_cond p s i
  rwa [scanCond_some hb] at this

/-- Every byte passed over by the scan satisfies the predicate. -/
theorem scanWhile_mem (p : Nat → Bool) (s : GoStr) (i : Nat) :
    ∀ k, i ≤ k → k < scanWhile p s i → ∃ b, s[k]? = some b ∧ p b = true := by
  unfold scanWhile
  generalize s.length - i = fuel
  induction fuel generalizing i with
  | zero =>
    intro k hk1 hk2
    simp [scanWhileAux] at hk2
    omega
  | succ n ih =>
    intro k hk1 hk2
    simp only [scanWhileAux] at hk2
    by_cases hc : scanCond p s i
    · rw [if_pos hc] at hk2
      rcases Nat.eq_or_lt_of_le hk1 with heq | hlt
      · have hlt2 := scanCond_lt_length hc
        have hsome : s[i]? = some (s.get ⟨i, hlt2⟩) := by
          simp [List.getElem?_eq_getElem hlt2]
        refine ⟨s.get ⟨i, hlt2⟩, heq ▸ hsome, ?_⟩
        rwa [scanCond_some hsome] at hc
      · exact ih (i + 1) k hlt hk2
    · simp [hc] at hk2
      omega

/-- If every byte from `i` on satisfies the predicate, the scan runs to the end. -/
theorem scanWhile_eq_length (p : Nat → Bool) (s : GoStr) (i : Nat) (hi : i ≤ s.length)
    (hall : ∀ k b, i ≤ k → s[k]? = some b → p b = true) :
    scanWhile p s i = s.length := by
  have h1 := scanWhile_ge p s i
  have h2 := scanWhile_le p s i hi
  rcases Nat.eq_or_lt_of_le h2 with heq | hlt
  · exact heq
  · exfalso
    have hsome : s[scanWhile p s i]? = some (s.get ⟨scanWhile p s i, hlt⟩) := by
      simp [List.getElem?_eq_getElem hlt]
    have hfalse := scanWhile_stop_prop p s i _ hsome
    have htrue := hall _ _ h1 hsome
    rw [htrue] at hfalse
    cases hfalse

theorem scanWhile_step {p : Nat → Bool} {s : GoStr} {i b : Nat}
    (h : s[i]? = some b) (hp : p b = true) : scanWhile p s i = scanWhile p s (i + 1) := by
  rw [scanWhile_eq, if_pos ((scanCond_some h).trans hp)]

theorem scanWhile_stop {p : Nat → Bool} {s : GoStr} {i b : Nat}
    (h : s[i]? = some b) (hp : p b = false) : scanWhile p s i = i := by
  rw [scanWhile_eq, scanCond_some h, hp]
  simp

theorem scanWhile_stop_none {p : Nat → Bool} {s : GoStr} {i : Nat}
    (h : s[i]? = none) : scanWhile p s i = i := by
  rw [scanWhile_eq, scanCond_none h]
  simp

/-- The `TokenType` enumeration from ansiparser.go. The order matches the Go
constants, so that the Go zero value is `String`. -/
inductive TokenType where
  | String
  | EscapeCode
  | ComplexChar
  | ZeroWidth
deriving DecidableEq, Repr

/-- The `AnsiToken` struct from ansiparser.go (field `Type` renamed `type_`). -/
structure AnsiToken where
  type_ : TokenType
  Content : GoStr
  FG : GoStr
  BG : GoStr
deriving DecidableEq, Repr

/-- The Go zero value of `AnsiToken`. -/
instance : Inhabited AnsiToken := ⟨⟨.String, [], [], []⟩⟩

/-- The byte value of the semicolon separator in SGR parameter strings. -/
def semi : Nat := 59

/-- The `readNextCommand` closure of `parseSGR`: read the field up to the next
semicolon (or end of input) starting at `pos`, consuming the semicolon when
present. Returns the field together with the updated `pos`. -/
def readNextCommand (sgr : GoStr) (pos : Nat) : GoStr × Nat :=
  let stop := scanWhile (fun b => b != semi) sgr pos
  let answer := (sgr.drop pos).take (stop - pos)
  if stop < sgr.length then (answer, stop + 1) else (answer, stop)

theorem readNextCommand_snd_mono (sgr : GoStr) (pos : Nat) :
    pos ≤ (readNextCommand sgr pos).2 := by
  unfold readNextCommand
  have := scanWhile_ge (fun b => b != semi) sgr pos
  by_cases h : scanWhile (fun b => b != semi) sgr pos < sgr.length <;> simp [h] <;> omega

theorem readNextCommand_snd_lt (sgr : GoStr) (pos : Nat) (h : pos < sgr.length) :
    pos < (readNextCommand sgr pos).2 := by
  unfold readNextCommand
  have := scanWhile_ge (fun b => b != semi) sgr pos
  by_cases hlt : scanWhile (fun b => b != semi) sgr pos < sgr.length <;> simp [hlt] <;> omega

theorem readNextCommand_snd_le (sgr : GoStr) (pos : Nat) (h : pos ≤ sgr.length) :
    (readNextCommand sgr pos).2 ≤ sgr.length := by
  unfold readNextCommand
  have := scanWhile_le (fun b => b != semi) sgr pos h
  by_cases hlt : scanWhile (fun b => b != semi) sgr pos < sgr.length <;> simp [hlt] <;> omega

/-- The `parseSetColor` closure of `parseSGR`. `startPos` is the index of the
`38`/`48` field, `command` its text, `pos` the current reading position. On a
`5` sub-field reads one further field, on a `2` sub-field three further fields,
and returns the tag sliced out of `sgr`; the slice upper bound can run past the
end of `sgr` on truncated input, in which case Go panics (`none` here). Any
other sub-field returns the empty tag. -/
def parseSetColor (sgr : GoStr) (startPos : Nat) (command : GoStr) (pos : Nat) :
    Option (GoStr × Nat) :=
  let rt := readNextCommand sgr pos
  if rt.1 = [53] then
    let rc := readNextCommand sgr rt.2
    match goSlice sgr startPos (startPos + command.length + 1 + rt.1.length + 1 + rc.1.length) with
    | none => none
    | some tag => some (tag, rc.2)
  else if rt.1 = [50] then
    let rr := readNextCommand sgr rt.2
    let rg := readNextCommand sgr rr.2
    let rb := readNextCommand sgr rg.2
    match goSlice sgr startPos (startPos + command.length + 1 + rt.1.length + 1 +
        rr.1.length + 1 + rg.1.length + 1 + rb.1.length) with
    | none => none
    | some tag => some (tag, rb.2)
  else
    some ([], rt.2)

theorem parseSetColor_snd_mono {sgr : GoStr} {startPos : Nat} {command : GoStr} {pos : Nat}
    {r : GoStr × Nat} (h : parseSetColor sgr startPos command pos = some r) :
    pos ≤ r.2 := by
  have h1 := readNextCommand_snd_mono sgr pos
  have h2 := readNextCommand_snd_mono sgr (readNextCommand sgr pos).2
  have h3 := readNextCommand_snd_mono sgr (readNextCommand sgr (readNextCommand sgr pos).2).2
  have h4 := readNextCommand_snd_mono sgr
    (readNextCommand sgr (readNextCommand sgr (readNextCommand sgr pos).2).2).2
  simp only [parseSetColor] at h
  split at h
  · split at h
    · exact Option.noConfusion h
    · injection h with h5
      subst h5
      exact Nat.le_trans h1 h2
  · split at h
    · split at h
      · exact Option.noConfusion h
      · injection h with h5
        subst h5
        exact Nat.le_trans h1 (Nat.le_trans h2 (Nat.le_trans h3 h4))
    · injection h with h5
      subst h5
      exact h1

/-- The field loop of `parseSGR`, with the ambient `fg`/`bg` state. -/
def sgrLoop (sgr : GoStr) (fg bg : GoStr) (pos : Nat) : Option (GoStr × GoStr) :=
  if h : pos < sgr.length then
    let rc := readNextCommand sgr pos
    let command := rc.1
    if command = [49] then
      sgrLoop sgr [] [] rc.2
    else if command = [51, 57] then
      sgrLoop sgr [] bg rc.2
    else if command = [51, 56] then
      match hsc : parseSetColor sgr pos command rc.2 with
      | none => none
      | some r => sgrLoop sgr r.1 bg r.2
    else if command.length = 2 ∧ command.headD 0 = 51 then
      sgrLoop sgr command bg rc.2
    else if command = [57, 48] ∨ command = [57, 49] ∨ command = [57, 50] ∨
        command = [57, 51] ∨ command = [57, 52] ∨ command = [57, 53] ∨
        command = [57, 54] ∨ command = [57, 55] then
      sgrLoop sgr command bg rc.2
    else if command = [52, 57] then
      sgrLoop sgr fg [] rc.2
    else if command = [52, 56] then
      match hsc : parseSetColor sgr pos command rc.2 with
      | none => none
      | some r => sgrLoop sgr fg r.1 r.2
    else if command.length = 2 ∧ command.headD 0 = 52 then
      sgrLoop sgr fg command rc.2
    else if command = [49, 48, 48] ∨ command = [49, 48, 49] ∨ command = [49, 48, 50] ∨
        command = [49, 48, 51] ∨ command = [49, 48, 52] ∨ command = [49, 48, 53] ∨
        command = [49, 48, 54] ∨ command = [49, 48, 55] then
      sgrLoop sgr fg command rc.2
    else
      sgrLoop sgr fg bg rc.2
  else
    some (fg, bg)
termination_by sgr.length - pos
decreasing_by
  all_goals
    have hrc2 : rc.2 = (readNextCommand sgr pos).2 := rfl
  all_goals
    have h1 := readNextCommand_snd_lt sgr pos h
  all_goals
    try have h2 := parseSetColor_snd_mono hsc
  all_goals omega

/-- The `parseSGR` function from StringTokenizer.go: resolve an SGR parameter
string against the previous foreground/background colors. -/
def parseSGR (sgr : GoStr) (prevFG prevBG : GoStr) : Option (GoStr × GoStr) :=
  if sgr.length = 0 then some ([], [])
  else sgrLoop sgr prevFG prevBG 0

/-- CSI parameter byte: `0x30`–`0x3F`. -/
def isParamByte (b : Nat) : Bool := decide (48 ≤ b ∧ b ≤ 63)

/-- CSI intermediate byte: `0x20`–`0x2F`. -/
def isIntermediateByte (b : Nat) : Bool := decide (32 ≤ b ∧ b ≤ 47)

/-- The position after the CSI parameter-byte run of `str` (which starts at 2,
after the two introducer bytes). -/
def csiParamEnd (str : GoStr) : Nat := scanWhile isParamByte str 2

/-- The position after the CSI intermediate-byte run of `str`. -/
def csiInterEnd (str : GoStr) : Nat := scanWhile isIntermediateByte str (csiParamEnd str)

/-- The final command byte together with the end position of the escape code:
Go reads one more byte as the command exactly when `str[i] >= 40 && str[i] <= 0x7E`
(note `40` is decimal, i.e. `0x28`). The command byte defaults to zero. -/
def csiCommand (str : GoStr) : Nat × Nat :=
  match str[csiInterEnd str]? with
  | some b => if 40 ≤ b ∧ b ≤ 126 then (b, csiInterEnd str + 1) else (0, csiInterEnd str)
  | none => (0, csiInterEnd str)

/-- The `parseASCIIEscapeCode` function from StringTokenizer.go: parse a CSI
escape code from the head of `str` (which is expected to start with `ESC [`),
resolving SGR (`m`) commands against the previous colors. -/
def parseASCIIEscapeCode (str : GoStr) (prevFG prevBG : GoStr) : Option AnsiToken :=
  match goSlice str 0 (csiCommand str).2 with
  | none => none
  | some content =>
    if (csiCommand str).1 = 109 then
      match goSlice str 2 ((csiCommand str).2 - 1) with
      | none => none
      | some sgrStr =>
        match parseSGR sgrStr prevFG prevBG with
        | none => none
        | some fgbg =>
          some { type_ := .EscapeCode, Content := content, FG := fgbg.1, BG := fgbg.2 }
    else
      some { type_ := .EscapeCode, Content := content, FG := prevFG, BG := prevBG }

theorem csiParamEnd_ge (str : GoStr) : 2 ≤ csiParamEnd str :=
  scanWhile_ge _ _ _

theorem csiInterEnd_ge (str : GoStr) : 2 ≤ csiInterEnd str :=
  Nat.le_trans (csiParamEnd_ge str) (scanWhile_ge _ _ _)

theorem csiCommand_snd_ge (str : GoStr) : 2 ≤ (csiCommand str).2 := by
  unfold csiCommand
  have := csiInterEnd_ge str
  rcases h : str[csiInterEnd str]? with _ | b
  · simpa using this
  · by_cases hb : 40 ≤ b ∧ b ≤ 126 <;> simp [hb] <;> omega

theorem csiCommand_snd_le (str : GoStr) (h : 2 ≤ str.length) :
    (csiCommand str).2 ≤ str.length := by
  have hp : csiParamEnd str ≤ str.length := scanWhile_le _ _ _ h
  have hi : csiInterEnd str ≤ str.length := scanWhile_le _ _ _ hp
  unfold csiCommand
  rcases hb : str[csiInterEnd str]? with _ | b
  · simpa using hi
  · have hlt : csiInterEnd str < str.length := by
      by_contra hge
      rw [List.getElem?_eq_none (by omega)] at hb
      cases hb
    by_cases hr : 40 ≤ b ∧ b ≤ 126 <;> simp [hr] <;> omega

/-- A successfully parsed CSI token has as content the first
`(csiCommand str).2 ≥ 2` bytes of the input. -/
theorem parseASCIIEscapeCode_content {str prevFG prevBG : GoStr} {tok : AnsiToken}
    (h : parseASCIIEscapeCode str prevFG prevBG = some tok) :
    tok.type_ = .EscapeCode ∧ tok.Content = str.take (csiCommand str).2 ∧
      2 ≤ (csiCommand str).2 ∧ (csiCommand str).2 ≤ str.length := by
  have hkey : ∀ content : GoStr, goSlice str 0 (csiCommand str).2 = some content →
      content = str.take (csiCommand str).2 ∧ (csiCommand str).2 ≤ str.length := by
    intro content hs
    unfold goSlice at hs
    by_cases hb : 0 ≤ (csiCommand str).2 ∧ (csiCommand str).2 ≤ str.length
    · rw [if_pos hb] at hs
      injection hs with hs
      refine ⟨?_, hb.2⟩
      simp [← hs]
    · rw [if_neg hb] at hs
      cases hs
  unfold parseASCIIEscapeCode at h
  split at h
  · exact Option.noConfusion h
  · rename_i content hs
    obtain ⟨hcontent, hb⟩ := hkey content hs
    split at h
    · split at h
      · exact Option.noConfusion h
      · split at h
        · exact Option.noConfusion h
        · injection h with h4
          subst h4
          exact ⟨rfl, hcontent, csiCommand_snd_ge str, hb⟩
    · injection h with h4
      subst h4
      exact ⟨rfl, hcontent, csiCommand_snd_ge str, hb⟩

/-- The termination test of the OSC scanning loop in `parseASCIIOSC`:
`i >= len(str) || str[i] == bel || str[i-1:i+1] == st`. -/
def oscDone (str : GoStr) (i : Nat) : Bool :=
  decide (str.length ≤ i) || decide (str[i]? = some 7) ||
    decide (str[i - 1]? = some 27 ∧ str[i]? = some 92)

theorem oscDone_of_le {str : GoStr} {i : Nat} (h : str.length ≤ i) : oscDone str i = true := by
  simp [oscDone, h]

theorem not_oscDone_lt {str : GoStr} {i : Nat} (h : oscDone str i = false) : i < str.length := by
  by_contra hge
  rw [oscDone_of_le (by omega)] at h
  cases h

/-- Fuel-driven variant of the OSC scanning loop `for !done() { i++ }`; the
fuel `s.length - i` is exact because `done()` holds once `i ≥ len(str)`. -/
def oscScanAux (str : GoStr) : Nat → Nat → Nat
  | 0, i => i
  | fuel + 1, i => if oscDone str i then i else oscScanAux str fuel (i + 1)

/-- The OSC scanning loop starting at position `i`. -/
def oscScan (str : GoStr) (i : Nat) : Nat := oscScanAux str (str.length - i) i

theorem oscScan_eq (str : GoStr) (i : Nat) :
    oscScan str i = if oscDone str i then i else oscScan str (i + 1) := by
  unfold oscScan
  rcases hf : str.length - i with _ | k
  · rw [if_pos (oscDone_of_le (by omega))]
    rfl
  · have hk : str.length - (i + 1) = k := by omega
    simp only [oscScanAux, hk]

theorem oscScan_ge (str : GoStr) (i : Nat) : i ≤ oscScan str i := by
  unfold oscScan
  generalize str.length - i = fuel
  induction fuel generalizing i with
  | zero => simp [oscScanAux]
  | succ k ih =>
    simp only [oscScanAux]
    by_cases hd : oscDone str i
    · simp [hd]
    · rw [if_neg hd]
      exact Nat.le_trans (Nat.le_succ i) (ih (i + 1))

theorem oscScanAux_le (str : GoStr) (fuel i : Nat) : oscScanAux str fuel i ≤ i + fuel := by
  induction fuel generalizing i with
  | zero => simp [oscScanAux]
  | succ k ih =>
    simp only [oscScanAux]
    by_cases hd : oscDone str i
    · simp [hd]
    · rw [if_neg hd]
      have := ih (i + 1)
      omega

theorem oscScan_le (str : GoStr) (i : Nat) (h : i ≤ str.length) :
    oscScan str i ≤ str.length := by
  have := oscScanAux_le str (str.length - i) i
  unfold oscScan
  omega

theorem oscScan_done (str : GoStr) (i : Nat) : oscDone str (oscScan str i) = true := by
  unfold oscScan
  generalize hgen : str.length - i = fuel
  have hge : str.length ≤ i + fuel := by omega
  clear hgen
  induction fuel generalizing i with
  | zero =>
    simp only [oscScanAux]
    exact oscDone_of_le (by omega)
  | succ k ih =>
    simp only [oscScanAux]
    by_cases hd : oscDone str i
    · simpa [hd] using hd
    · rw [if_neg hd]
      exact ih (i + 1) (by omega)

theorem oscScan_min (str : GoStr) (i : Nat) :
    ∀ k, i ≤ k → k < oscScan str i → oscDone str k = false := by
  unfold oscScan
  generalize str.length - i = fuel
  induction fuel generalizing i with
  | zero =>
    intro k hk1 hk2
    simp [oscScanAux] at hk2
    omega
  | succ n ih =>
    intro k hk1 hk2
    simp only [oscScanAux] at hk2
    by_cases hd : oscDone str i
    · rw [if_pos hd] at hk2
      omega
    · rw [if_neg hd] at hk2
      rcases Nat.eq_or_lt_of_le hk1 with heq | hlt
      · rw [← heq]
        exact Bool.eq_false_iff.mpr hd
      · exact ih (i + 1) k hlt hk2

/-- The `parseASCIIOSC` function from StringTokenizer.go: scan an OSC escape
sequence from the head of `str` (expected to start with `ESC ]`), up to and
including a BEL byte or the two-byte `ESC \` string terminator, or to the end
of the input. The inbound colors are passed through unchanged. -/
def parseASCIIOSC (str : GoStr) (prevFG prevBG : GoStr) : Option AnsiToken :=
  match goSlice str 0
      (if oscScan str 2 < str.length then oscScan str 2 + 1 else oscScan str 2) with
  | none => none
  | some content =>
    some { type_ := .EscapeCode, Content := content, FG := prevFG, BG := prevBG }

/-- A successfully parsed OSC token has as content the first `i ≥ 2` bytes of
the input, where `i` is the termination position (inclusive of the terminator). -/
theorem parseASCIIOSC_content {str prevFG prevBG : GoStr} {tok : AnsiToken}
    (h : parseASCIIOSC str prevFG prevBG = some tok) :
    ∃ i, tok.type_ = .EscapeCode ∧ tok.FG = prevFG ∧ tok.BG = prevBG ∧
      tok.Content = str.take i ∧ 2 ≤ i ∧ i ≤ str.length := by
  unfold parseASCIIOSC at h
  set i := if oscScan str 2 < str.length then oscScan str 2 + 1 else oscScan str 2 with hi
  rcases hs : goSlice str 0 i with _ | content
  · rw [hs] at h; cases h
  · rw [hs] at h
    injection h with h4
    subst h4
    have hb : i ≤ str.length := by
      by_contra hgt
      unfold goSlice at hs
      rw [if_neg (by omega)] at hs
      cases hs
    have hge : 2 ≤ i := by
      have := oscScan_ge str 2
      rw [hi]
      split <;> omega
    have hcontent : content = str.take i := by
      unfold goSlice at hs
      rw [if_pos ⟨Nat.zero_le _, hb⟩] at hs
      injection hs with hs
      simp [← hs]
    exact ⟨i, rfl, rfl, rfl, hcontent, hge, hb⟩

/-- The guard under which the reading loop of `StringTokenizer.Next` stops
advancing at position `p`: an `ESC` byte whose lookahead byte is in bounds and
equals `[` or `]`. -/
def isEscStart (s : GoStr) (p : Nat) : Bool :=
  decide (s[p]? = some 27) &&
    (decide (s[p + 1]? = some 91) || decide (s[p + 1]? = some 93))

/-- Fuel-driven variant of the reading loop of `StringTokenizer.Next`, which
advances the position one byte at a time over multi-byte and plain characters
until it reaches a CSI or OSC introducer or the end of the input. -/
def scanPlainAux (s : GoStr) : Nat → Nat → Nat
  | 0, p => p
  | fuel + 1, p =>
    if p < s.length then (if isEscStart s p then p else scanPlainAux s fuel (p + 1)) else p

/-- The reading loop of `StringTokenizer.Next` starting at position `p`. -/
def scanPlain (s : GoStr) (p : Nat) : Nat := scanPlainAux s (s.length - p) p

theorem scanPlain_eq (s : GoStr) (p : Nat) :
    scanPlain s p =
      if p < s.length then (if isEscStart s p then p else scanPlain s (p + 1)) else p := by
  unfold scanPlain
  rcases hf : s.length - p with _ | k
  · rw [if_neg (by omega)]
    rfl
  · have hk : s.length - (p + 1) = k := by omega
    simp only [scanPlainAux, hk]

theorem scanPlain_ge (s : GoStr) (p : Nat) : p ≤ scanPlain s p := by
  unfold scanPlain
  generalize s.length - p = fuel
  induction fuel generalizing p with
  | zero => simp [scanPlainAux]
  | succ k ih =>
    simp only [scanPlainAux]
    by_cases hp : p < s.length
    · rw [if_pos hp]
      by_cases he : isEscStart s p
      · simp [he]
      · rw [if_neg he]
        exact Nat.le_trans (Nat.le_succ p) (ih (p + 1))
    · simp [hp]

theorem scanPlainAux_le (s : GoStr) (fuel p : Nat) : scanPlainAux s fuel p ≤ p + fuel := by
  induction fuel generalizing p with
  | zero => simp [scanPlainAux]
  | succ k ih =>
    simp only [scanPlainAux]
    by_cases hp : p < s.length
    · rw [if_pos hp]
      by_cases he : isEscStart s p
      · simp [he]
      · rw [if_neg he]
        have := ih (p + 1)
        omega
    · simp [hp]

theorem scanPlain_le (s : GoStr) (p : Nat) (h : p ≤ s.length) :
    scanPlain s p ≤ s.length := by
  have := scanPlainAux_le s (s.length - p) p
  unfold scanPlain
  omega

/-- If the reading loop stops strictly inside the input, it stopped on a CSI
or OSC introducer. -/
theorem scanPlain_esc (s : GoStr) (p : Nat) (h : scanPlain s p < s.length) :
    isEscStart s (scanPlain s p) = true := by
  unfold scanPlain at *
  generalize hgen : s.length - p = fuel at *
  induction fuel generalizing p with
  | zero =>
    simp only [scanPlainAux] at *
    omega
  | succ k ih =>
    simp only [scanPlainAux] at *
    by_cases hp : p < s.length
    · rw [if_pos hp] at h ⊢
      by_cases he : isEscStart s p
      · simpa [he] using he
      · rw [if_neg he] at h ⊢
        exact ih (p + 1) (by omega) h
    · rw [if_neg hp] at h
      omega

/-- The `StringTokenizer` struct from StringTokenizer.go. -/
structure StringTokenizer where
  token : AnsiToken
  input : GoStr
  position : Nat
deriving DecidableEq, Repr

/-- `NewStringTokenizer`: a fresh tokenizer over `input` (the `token` field has
the Go zero value: type `String` (0), empty content and colors). -/
def NewStringTokenizer (input : GoStr) : StringTokenizer :=
  { token := { type_ := .String, Content := [], FG := [], BG := [] },
    input := input, position := 0 }

/-- `StringTokenizer.Token`: the current token. -/
def StringTokenizer.Token (tokenizer : StringTokenizer) : AnsiToken := tokenizer.token

/-- `StringTokenizer.Next`: parse the next token. `some (b, tokenizer')` is
Go's boolean result together with the updated tokenizer state; `none` models a
runtime panic. The reading loop is `scanPlain`; the condition
`currentStart = p ∨ length < p` is `makeStringToken`'s failure test. -/
def StringTokenizer.Next (tokenizer : StringTokenizer) : Option (Bool × StringTokenizer) :=
  let str := tokenizer.input
  let currentStart := tokenizer.position
  let p := scanPlain str currentStart
  if p < str.length then
    if currentStart = p ∨ str.length < p then
      match
        (if str[p + 1]? = some 91 then
          parseASCIIEscapeCode (str.drop p) tokenizer.token.FG tokenizer.token.BG
        else
          parseASCIIOSC (str.drop p) tokenizer.token.FG tokenizer.token.BG) with
      | none => none
      | some escapeCode =>
        some (true, { token := escapeCode, input := str,
                      position := p + escapeCode.Content.length })
    else
      match goSlice str currentStart p with
      | none => none
      | some content =>
        some (true, { token := { type_ := .String, Content := content,
                                 FG := tokenizer.token.FG, BG := tokenizer.token.BG },
                      input := str, position := p })
  else
    if currentStart = p ∨ str.length < p then
      some (false, { tokenizer with position := p })
    else
      match goSlice str currentStart p with
      | none => none
      | some content =>
        some (true, { token := { type_ := .String, Content := content,
                                 FG := tokenizer.token.FG, BG := tokenizer.token.BG },
                      input := str, position := p })

theorem goSlice_eq_some {s : GoStr} {lo hi : Nat} {c : GoStr}
    (h : goSlice s lo hi = some c) :
    lo ≤ hi ∧ hi ≤ s.length ∧ c = (s.drop lo).take (hi - lo) := by
  unfold goSlice at h
  split at h
  · injection h with h1
    rename_i hb
    exact ⟨hb.1, hb.2, h1.symm⟩
  · cases h

theorem scanPlain_of_le {s : GoStr} {p : Nat} (h : s.length ≤ p) : scanPlain s p = p := by
  unfold scanPlain
  rw [Nat.sub_eq_zero_of_le h]
  rfl

/-- Both escape scanners produce a token whose content is a prefix of length
at least 2 of their input. -/
theorem escScan_content {s f b : GoStr} {tok : AnsiToken}
    (h : parseASCIIEscapeCode s f b = some tok ∨ parseASCIIOSC s f b = some tok) :
    tok.Content = s.take tok.Content.length ∧ 2 ≤ tok.Content.length ∧
      tok.Content.length ≤ s.length := by
  rcases h with h | h
  · obtain ⟨-, hc, h2, hlen⟩ := parseASCIIEscapeCode_content h
    have hl : tok.Content.length = (csiCommand s).2 := by
      rw [hc, List.length_take]
      omega
    rw [hl, hc]
    exact ⟨rfl, by omega, by omega⟩
  · obtain ⟨i, -, -, -, hc, h2, hlen⟩ := parseASCIIOSC_content h
    have hl : tok.Content.length = i := by
      rw [hc, List.length_take]
      omega
    rw [hl, hc]
    exact ⟨rfl, by omega, by omega⟩

/-- A successful `Next` that reports a token strictly advances the position,
keeps the input, stays in bounds, and stores as content exactly the bytes
between the old and the new position. -/
theorem next_true_facts {tk tk' : StringTokenizer} (h : tk.Next = some (true, tk')) :
    tk.position < tk'.position ∧ tk'.input = tk.input ∧
      tk'.position ≤ tk.input.length ∧
      tk'.token.Content = (tk.input.drop tk.position).take (tk'.position - tk.position) := by
  simp only [StringTokenizer.Next] at h
  have hge := scanPlain_ge tk.input tk.position
  split at h
  · rename_i hlt
    split at h
    · rename_i hguard
      have hcs : tk.position = scanPlain tk.input tk.position := by
        rcases hguard with h1 | h1
        · exact h1
        · omega
      split at h
      · exact Option.noConfusion h
      · rename_i escapeCode hesc
        simp only [Option.some.injEq, Prod.mk.injEq, true_and] at h
        subst h
        have hcontent : escapeCode.Content =
            (tk.input.drop (scanPlain tk.input tk.position)).take escapeCode.Content.length ∧
            2 ≤ escapeCode.Content.length ∧
            escapeCode.Content.length ≤ (tk.input.drop (scanPlain tk.input tk.position)).length := by
          apply escScan_content
          split at hesc
          · exact Or.inl hesc
          · exact Or.inr hesc
        obtain ⟨hc, h2, hl⟩ := hcontent
        rw [List.length_drop] at hl
        dsimp only
        refine ⟨by omega, rfl, by omega, ?_⟩
        rw [← hcs, Nat.add_sub_cancel_left, hcs]
        exact hc
    · rename_i hguard
      push_neg at hguard
      split at h
      · exact Option.noConfusion h
      · rename_i content hslice
        obtain ⟨hab, hbl, hcontent⟩ := goSlice_eq_some hslice
        simp only [Option.some.injEq, Prod.mk.injEq, true_and] at h
        subst h
        dsimp only
        exact ⟨by omega, rfl, hbl, hcontent⟩
  · rename_i hlt
    split at h
    · simp only [Option.some.injEq, Prod.mk.injEq] at h
      exact absurd h.1 (by simp)
    · rename_i hguard
      push_neg at hguard
      split at h
      · exact Option.noConfusion h
      · rename_i content hslice
        obtain ⟨hab, hbl, hcontent⟩ := goSlice_eq_some hslice
        simp only [Option.some.injEq, Prod.mk.injEq, true_and] at h
        subst h
        dsimp only
        exact ⟨by omega, rfl, hbl, hcontent⟩

/-- A `Next` that reports `false` leaves the tokenizer unchanged, and happens
exactly at or past the end of the input. -/
theorem next_false_facts {tk tk' : StringTokenizer} (h : tk.Next = some (false, tk')) :
    tk' = tk ∧ tk.input.length ≤ tk.position := by
  simp only [StringTokenizer.Next] at h
  have hge := scanPlain_ge tk.input tk.position
  split at h
  · split at h
    · split at h
      · exact Option.noConfusion h
      · simp only [Option.some.injEq, Prod.mk.injEq] at h
        exact absurd h.1 (by simp)
    · split at h
      · exact Option.noConfusion h
      · simp only [Option.some.injEq, Prod.mk.injEq] at h
        exact absurd h.1 (by simp)
  · rename_i hlt
    split at h
    · rename_i hguard
      have hp : scanPlain tk.input tk.position = tk.position := by
        by_cases hc : tk.input.length ≤ tk.position
        · exact scanPlain_of_le hc
        · have := scanPlain_le tk.input tk.position (by omega)
          rcases hguard with h1 | h1
          · omega
          · omega
      simp only [Option.some.injEq, Prod.mk.injEq, true_and] at h
      rw [hp] at h
      constructor
      · rw [← h]
      · omega
    · split at h
      · exact Option.noConfusion h
      · simp only [Option.some.injEq, Prod.mk.injEq] at h
        exact absurd h.1 (by simp)

/-- Once the position is at or past the end, `Next` reports `false` and leaves
the tokenizer unchanged. -/
theorem next_of_ge {tk : StringTokenizer} (h : tk.input.length ≤ tk.position) :
    tk.Next = some (false, tk) := by
  simp only [StringTokenizer.Next]
  rw [scanPlain_of_le h]
  rw [if_neg (by omega), if_pos (Or.inl rfl)]

/-- The stream of tokens obtained by repeatedly calling `Next` until it
returns `false`, reading `Token()` after each successful call; `none` if some
call panics. -/
def StringTokenizer.tokens (tk : StringTokenizer) : Option (List AnsiToken) :=
  match h : tk.Next with
  | none => none
  | some (false, _) => some []
  | some (true, tk') => (tk'.tokens).map (fun ts => tk'.token :: ts)
termination_by tk.input.length - tk.position
decreasing_by
  obtain ⟨ha, hb, hc, -⟩ := next_true_facts h
  rw [hb]
  omega

/-- Parsing an entire input with a fresh `StringTokenizer`. -/
def ParseAllNext (input : GoStr) : Option (List AnsiToken) :=
  (NewStringTokenizer input).tokens

/-- Concatenation of the contents of a token list. -/
def concatContent (ts : List AnsiToken) : GoStr := (ts.map AnsiToken.Content).join

theorem tokens_none {tk : StringTokenizer} (h : tk.Next = none) : tk.tokens = none := by
  unfold StringTokenizer.tokens
  split
  · rfl
  · rename_i heq
    rw [h] at heq
    cases heq
  · rename_i heq
    rw [h] at heq
    cases heq

theorem tokens_false {tk tk' : StringTokenizer} (h : tk.Next = some (false, tk')) :
    tk.tokens = some [] := by
  unfold StringTokenizer.tokens
  split
  · rename_i heq
    rw [h] at heq
    cases heq
  · rfl
  · rename_i heq
    rw [h] at heq
    cases heq

theorem tokens_true {tk tk' : StringTokenizer} (h : tk.Next = some (true, tk')) :
    tk.tokens = (tk'.tokens).map (fun ts => tk'.token :: ts) := by
  conv_lhs => unfold StringTokenizer.tokens
  split
  · rename_i heq
    rw [h] at heq
    cases heq
  · rename_i heq
    rw [h] at heq
    cases heq
  · rename_i tk'' heq
    rw [h] at heq
    injection heq with heq1
    injection heq1 with heq2 heq3
    rw [heq3]

theorem drop_take_drop (l : GoStr) (a b : Nat) (hab : a ≤ b) :
    (l.drop a).take (b - a) ++ l.drop b = l.drop a := by
  have hd : l.drop b = (l.drop a).drop (b - a) := by
    rw [List.drop_drop]
    congr 1
    omega
  rw [hd, List.take_append_drop]

/-- Reconstruction for the resumable tokenizer: a completed run of `Next`
yields tokens whose contents concatenate to the unread part of the input. -/
theorem tokens_concat_aux :
    ∀ (n : Nat) (tk : StringTokenizer) (ts : List AnsiToken),
      tk.input.length - tk.position ≤ n → tk.tokens = some ts →
      concatContent ts = tk.input.drop tk.position := by
  intro n
  induction n with
  | zero =>
    intro tk ts hle h
    have hge : tk.input.length ≤ tk.position := by omega
    rw [tokens_false (next_of_ge hge)] at h
    injection h with h1
    subst h1
    rw [List.drop_eq_nil_of_le hge]
    rfl
  | succ m ih =>
    intro tk ts hle h
    rcases hnext : tk.Next with _ | ⟨b, tk'⟩
    · rw [tokens_none hnext] at h
      cases h
    · cases b
      · rw [tokens_false hnext] at h
        injection h with h1
        subst h1
        rw [List.drop_eq_nil_of_le (next_false_facts hnext).2]
        rfl
      · rw [tokens_true hnext] at h
        rcases hts' : tk'.tokens with _ | ts'
        · rw [hts'] at h
          cases h
        · rw [hts'] at h
          simp only [Option.map_some'] at h
          injection h with h1
          subst h1
          obtain ⟨hlt, hinput, hbound, hcontent⟩ := next_true_facts hnext
          have hrec : concatContent ts' = tk'.input.drop tk'.position :=
            ih tk' ts' (by rw [hinput]; omega) hts'
          have hjoin : concatContent (tk'.token :: ts') =
              tk'.token.Content ++ concatContent ts' := by
            simp [concatContent]
          rw [hjoin, hrec, hinput, hcontent]
          exact drop_take_drop tk.input tk.position tk'.position (by omega)

theorem parseASCIIEscapeCode_len {s f b : GoStr} {tok : AnsiToken}
    (h : parseASCIIEscapeCode s f b = some tok) :
    1 ≤ tok.Content.length ∧ tok.Content.length ≤ s.length :=
  have hc := escScan_content (Or.inl h)
  ⟨by omega, hc.2.2⟩

theorem parseASCIIOSC_len {s f b : GoStr} {tok : AnsiToken}
    (h : parseASCIIOSC s f b = some tok) :
    1 ≤ tok.Content.length ∧ tok.Content.length ≤ s.length :=
  have hc := escScan_content (Or.inr h)
  ⟨by omega, hc.2.2⟩

/-- The `finishStringToken` closure of `parseASCII`: append the pending string
run (if any) ending at `e` to the token list. `cs` models Go's `currentStart`
(`none` for `-1`). -/
def finishStringToken (str : GoStr) (cs : Option Nat) (e : Nat) (fg bg : GoStr)
    (tokens : List AnsiToken) : Option (List AnsiToken) :=
  match cs with
  | none => some tokens
  | some s =>
    match goSlice str s e with
    | none => none
    | some content =>
      some (tokens ++ [{ type_ := .String, Content := content, FG := fg, BG := bg }])

/-- The main loop of `parseASCII` from the batch parser: `i` is the cursor,
`cs` the pending string-run start, `fg`/`bg` the ambient colors, `tokens` the
accumulator. Returns the tokens and the number of consumed bytes. -/
def parseASCIIAux (str : GoStr) (force : Bool) (fg bg : GoStr)
    (tokens : List AnsiToken) (cs : Option Nat) (i : Nat) :
    Option (List AnsiToken × Nat) :=
  match hg : str[i]? with
  | none =>
    (finishStringToken str cs i fg bg tokens).map (fun ts => (ts, i))
  | some c =>
    if 127 < c ∧ force = false then
      (finishStringToken str cs i fg bg tokens).map (fun ts => (ts, i))
    else if c = 27 ∧ str[i + 1]? = some 91 then
      match finishStringToken str cs i fg bg tokens with
      | none => none
      | some ts =>
        match hesc : parseASCIIEscapeCode (str.drop i) fg bg with
        | none => none
        | some escapeCode =>
          parseASCIIAux str force escapeCode.FG escapeCode.BG (ts ++ [escapeCode]) none
            (i + escapeCode.Content.length)
    else if c = 27 ∧ str[i + 1]? = some 93 then
      match finishStringToken str cs i fg bg tokens with
      | none => none
      | some ts =>
        match hesc : parseASCIIOSC (str.drop i) fg bg with
        | none => none
        | some escapeCode =>
          parseASCIIAux str force fg bg (ts ++ [escapeCode]) none
            (i + escapeCode.Content.length)
    else if c = 7 then
      match finishStringToken str cs i fg bg tokens with
      | none => none
      | some ts =>
        match goSlice str i (i + 1) with
        | none => none
        | some content =>
          parseASCIIAux str force fg bg
            (ts ++ [{ type_ := .ZeroWidth, Content := content, FG := fg, BG := bg }]) none
            (i + 1)
    else
      parseASCIIAux str force fg bg tokens (some (cs.getD i)) (i + 1)
termination_by str.length - i
decreasing_by
  · have hi : i < str.length := by
      by_contra hge
      rw [List.getElem?_eq_none (by omega)] at hg
      cases hg
    have hlen := (parseASCIIEscapeCode_len hesc).1
    omega
  · have hi : i < str.length := by
      by_contra hge
      rw [List.getElem?_eq_none (by omega)] at hg
      cases hg
    have hlen := (parseASCIIOSC_len hesc).1
    omega
  · have hi : i < str.length := by
      by_contra hge
      rw [List.getElem?_eq_none (by omega)] at hg
      cases hg
    omega
  · have hi : i < str.length := by
      by_contra hge
      rw [List.getElem?_eq_none (by omega)] at hg
      cases hg
    omega

/-- The `parseASCII` function from the batch parser: the fast all-ASCII pass.
Returns the parsed tokens and the number of bytes consumed. -/
def parseASCII (str : GoStr) (force : Bool) (startFG startBG : GoStr) :
    Option (List AnsiToken × Nat) :=
  parseASCIIAux str force startFG startBG [] none 0

theorem seg_glue (l : GoStr) (a b c : Nat) (hab : a ≤ b) (hbc : b ≤ c) :
    (l.drop a).take (b - a) ++ (l.drop b).take (c - b) = (l.drop a).take (c - a) := by
  have hd : l.drop b = (l.drop a).drop (b - a) := by
    rw [List.drop_drop]
    congr 1
    omega
  have hc : c - a = (b - a) + (c - b) := by omega
  rw [hd, hc, List.take_add]

theorem concatContent_append (l1 l2 : List AnsiToken) :
    concatContent (l1 ++ l2) = concatContent l1 ++ concatContent l2 := by
  simp [concatContent]

theorem concatContent_single (t : AnsiToken) : concatContent [t] = t.Content := by
  simp [concatContent]

theorem finish_concat {str : GoStr} {cs : Option Nat} {e : Nat} {fg bg : GoStr}
    {tokens ts : List AnsiToken} (h : finishStringToken str cs e fg bg tokens = some ts) :
    concatContent ts = concatContent tokens ++ (str.drop (cs.getD e)).take (e - cs.getD e) ∧
      cs.getD e ≤ e := by
  cases cs with
  | none =>
    unfold finishStringToken at h
    dsimp only at h
    injection h with h1
    subst h1
    simp
  | some s =>
    unfold finishStringToken at h
    dsimp only at h
    split at h
    · exact Option.noConfusion h
    · rename_i content hslice
      obtain ⟨hab, hbl, hcontent⟩ := goSlice_eq_some hslice
      injection h with h1
      subst h1
      rw [concatContent_append, concatContent_single]
      exact ⟨by simp [hcontent], hab⟩

theorem finish_map_case {str : GoStr} {cs : Option Nat} {i : Nat} {fg bg : GoStr}
    {tokens ts : List AnsiToken} {m : Nat}
    (h : (finishStringToken str cs i fg bg tokens).map (fun ts => (ts, i)) = some (ts, m)) :
    i ≤ m ∧ concatContent ts = concatContent tokens ++
      (str.drop (cs.getD i)).take (m - cs.getD i) := by
  rcases hf : finishStringToken str cs i fg bg tokens with _ | ts0
  · rw [hf] at h
    cases h
  · rw [hf] at h
    simp only [Option.map_some', Option.some.injEq, Prod.mk.injEq] at h
    obtain ⟨hts, hm⟩ := h
    subst hts
    subst hm
    exact ⟨Nat.le_refl _, (finish_concat hf).1⟩

/-- Concatenation invariant of the `parseASCII` loop: the tokens produced by a
completed run cover exactly the bytes from the pending-run start to the final
cursor position. -/
theorem parseASCIIAux_concat :
    ∀ (n : Nat) (str : GoStr) (force : Bool) (fg bg : GoStr) (tokens : List AnsiToken)
      (cs : Option Nat) (i : Nat) (ts : List AnsiToken) (m : Nat),
      str.length - i ≤ n →
      parseASCIIAux str force fg bg tokens cs i = some (ts, m) →
      i ≤ m ∧ concatContent ts = concatContent tokens ++
        (str.drop (cs.getD i)).take (m - cs.getD i) := by
  intro n
  induction n with
  | zero =>
    intro str force fg bg tokens cs i ts m hle h
    unfold parseASCIIAux at h
    split at h
    · exact finish_map_case h
    · rename_i c hg
      rw [List.getElem?_eq_none (by omega)] at hg
      exact Option.noConfusion hg
  | succ n ih =>
    intro str force fg bg tokens cs i ts m hle h
    unfold parseASCIIAux at h
    split at h
    · exact finish_map_case h
    · rename_i c hg
      have hi : i < str.length := by
        by_contra hge
        rw [List.getElem?_eq_none (by omega)] at hg
        exact Option.noConfusion hg
      split at h
      · exact finish_map_case h
      · split at h
        · -- CSI branch
          split at h
          · exact Option.noConfusion h
          · rename_i ts0 hf
            split at h
            · exact Option.noConfusion h
            · rename_i escapeCode hesc
              obtain ⟨hL1, hL2⟩ := parseASCIIEscapeCode_len hesc
              rw [List.length_drop] at hL2
              obtain ⟨him, hconcat⟩ := ih str force escapeCode.FG escapeCode.BG
                (ts0 ++ [escapeCode]) none (i + escapeCode.Content.length) ts m (by omega) h
              simp only [Option.getD_none] at hconcat
              obtain ⟨hfc, hstart⟩ := finish_concat hf
              obtain ⟨hec, -, -⟩ := escScan_content (Or.inl hesc)
              have hecc : concatContent [escapeCode] =
                  (str.drop i).take (i + escapeCode.Content.length - i) := by
                rw [Nat.add_sub_cancel_left, concatContent_single]
                exact hec
              refine ⟨by omega, ?_⟩
              rw [hconcat, concatContent_append, hfc, hecc]
              rw [List.append_assoc (concatContent tokens)]
              rw [seg_glue str (cs.getD i) i (i + escapeCode.Content.length) hstart (by omega)]
              rw [List.append_assoc]
              rw [seg_glue str (cs.getD i) (i + escapeCode.Content.length) m (by omega) him]
        · split at h
          · -- OSC branch
            split at h
            · exact Option.noConfusion h
            · rename_i ts0 hf
              split at h
              · exact Option.noConfusion h
              · rename_i escapeCode hesc
                obtain ⟨hL1, hL2⟩ := parseASCIIOSC_len hesc
                rw [List.length_drop] at hL2
                obtain ⟨him, hconcat⟩ := ih str force fg bg
                  (ts0 ++ [escapeCode]) none (i + escapeCode.Content.length) ts m (by omega) h
                simp only [Option.getD_none] at hconcat
                obtain ⟨hfc, hstart⟩ := finish_concat hf
                obtain ⟨hec, -, -⟩ := escScan_content (Or.inr hesc)
                have hecc : concatContent [escapeCode] =
                    (str.drop i).take (i + escapeCode.Content.length - i) := by
                  rw [Nat.add_sub_cancel_left, concatContent_single]
                  exact hec
                refine ⟨by omega, ?_⟩
                rw [hconcat, concatContent_append, hfc, hecc]
                rw [List.append_assoc (concatContent tokens)]
                rw [seg_glue str (cs.getD i) i (i + escapeCode.Content.length) hstart (by omega)]
                rw [List.append_assoc]
                rw [seg_glue str (cs.getD i) (i + escapeCode.Content.length) m (by omega) him]
          · split at h
            · -- BEL branch
              split at h
              · exact Option.noConfusion h
              · rename_i ts0 hf
                split at h
                · exact Option.noConfusion h
                · rename_i content hslice
                  obtain ⟨-, -, hcontent⟩ := goSlice_eq_some hslice
                  obtain ⟨him, hconcat⟩ := ih str force fg bg
                    (ts0 ++ [{ type_ := .ZeroWidth, Content := content, FG := fg, BG := bg }])
                    none (i + 1) ts m (by omega) h
                  simp only [Option.getD_none] at hconcat
                  obtain ⟨hfc, hstart⟩ := finish_concat hf
                  have hecc : concatContent
                      [({ type_ := .ZeroWidth, Content := content,
                          FG := fg, BG := bg } : AnsiToken)] =
                      (str.drop i).take (i + 1 - i) := by
                    rw [Nat.add_sub_cancel_left, concatContent_single]
                    simpa using hcontent
                  refine ⟨by omega, ?_⟩
                  rw [hconcat, concatContent_append, hfc, hecc]
                  rw [List.append_assoc (concatContent tokens)]
                  rw [seg_glue str (cs.getD i) i (i + 1) hstart (by omega)]
                  rw [List.append_assoc]
                  rw [seg_glue str (cs.getD i) (i + 1) m (by omega) him]
            · -- plain byte branch
              obtain ⟨him, hconcat⟩ := ih str force fg bg tokens (some (cs.getD i)) (i + 1)
                ts m (by omega) h
              simp only [Option.getD_some] at hconcat
              exact ⟨by omega, hconcat⟩

/-- Reconstruction for the batch ASCII pass: the contents of the produced
tokens concatenate to the consumed prefix of the input. -/
theorem parseASCII_concat {str : GoStr} {force : Bool} {startFG startBG : GoStr}
    {ts : List AnsiToken} {m : Nat}
    (h : parseASCII str force startFG startBG = some (ts, m)) :
    concatContent ts = str.take m := by
  obtain ⟨-, hc⟩ := parseASCIIAux_concat str.length str force startFG startBG [] none 0 ts m
    (by omega) h
  simpa [concatContent] using hc

/-- Unfolding equation of the `parseASCII` loop at the end of the input. -/
theorem parseASCIIAux_none {str : GoStr} {force : Bool} {fg bg : GoStr}
    {tokens : List AnsiToken} {cs : Option Nat} {i : Nat} (hg : str[i]? = none) :
    parseASCIIAux str force fg bg tokens cs i =
      (finishStringToken str cs i fg bg tokens).map (fun ts => (ts, i)) := by
  conv_lhs => unfold parseASCIIAux
  split
  · rfl
  · rename_i c heq
    rw [hg] at heq
    exact Option.noConfusion heq

/-- Unfolding equation of the `parseASCII` loop on a plain byte. -/
theorem parseASCIIAux_plain {str : GoStr} {force : Bool} {fg bg : GoStr}
    {tokens : List AnsiToken} {cs : Option Nat} {i c : Nat} (hg : str[i]? = some c)
    (h1 : ¬(127 < c ∧ force = false)) (h2 : ¬(c = 27 ∧ str[i + 1]? = some 91))
    (h3 : ¬(c = 27 ∧ str[i + 1]? = some 93)) (h4 : ¬c = 7) :
    parseASCIIAux str force fg bg tokens cs i =
      parseASCIIAux str force fg bg tokens (some (cs.getD i)) (i + 1) := by
  conv_lhs => unfold parseASCIIAux
  split
  · rename_i heq
    rw [hg] at heq
    exact Option.noConfusion heq
  · rename_i c' heq
    rw [hg] at heq
    injection heq with heq
    subst heq
    rw [if_neg h1, if_neg h2, if_neg h3, if_neg h4]

/-- Unfolding equation of the `parseASCII` loop on a BEL byte: the pending
string run is flushed and a one-byte `ZeroWidth` token is appended. -/
theorem parseASCIIAux_bel {str : GoStr} {force : Bool} {fg bg : GoStr}
    {tokens : List AnsiToken} {cs : Option Nat} {i : Nat} (hg : str[i]? = some 7) :
    parseASCIIAux str force fg bg tokens cs i =
      match finishStringToken str cs i fg bg tokens with
      | none => none
      | some ts =>
        match goSlice str i (i + 1) with
        | none => none
        | some content =>
          parseASCIIAux str force fg bg
            (ts ++ [{ type_ := .ZeroWidth, Content := content, FG := fg, BG := bg }]) none
            (i + 1) := by
  conv_lhs => unfold parseASCIIAux
  split
  · rename_i heq
    rw [hg] at heq
    exact Option.noConfusion heq
  · rename_i c' heq
    rw [hg] at heq
    injection heq with heq
    subst heq
    rw [if_neg (by simp), if_neg (by simp), if_neg (by simp), if_pos rfl]

/-- On a BEL byte with no pending string run, the loop of `parseASCII` appends
exactly one `ZeroWidth` token whose content is that single byte, and advances
the cursor by 1. -/
theorem parseASCIIAux_bel_step {str : GoStr} {force : Bool} {fg bg : GoStr}
    {tokens : List AnsiToken} {i : Nat} (hg : str[i]? = some 7) :
    parseASCIIAux str force fg bg tokens none i =
      parseASCIIAux str force fg bg
        (tokens ++ [{ type_ := .ZeroWidth, Content := [7], FG := fg, BG := bg }]) none
        (i + 1) := by
  rw [parseASCIIAux_bel hg]
  have hi : i < str.length := by
    by_contra hge
    rw [List.getElem?_eq_none (by omega)] at hg
    exact Option.noConfusion hg
  have hslice : goSlice str i (i + 1) = some [7] := by
    unfold goSlice
    rw [if_pos ⟨by omega, by omega⟩]
    have : str.drop i = 7 :: str.drop (i + 1) := by
      have hgl : str[i] = 7 := by
        have := List.getElem?_eq_getElem hi
        rw [hg] at this
        injection this with this
        exact this.symm
      rw [List.drop_eq_getElem_cons hi, hgl]
    rw [this]
    simp
  rw [hslice]
  rfl

/-- The loop of `parseSGR` ends once the position reaches the end. -/
theorem sgrLoop_term {sgr fg bg : GoStr} {pos : Nat} (h : sgr.length ≤ pos) :
    sgrLoop sgr fg bg pos = some (fg, bg) := by
  unfold sgrLoop
  rw [dif_neg (by omega)]

/-- Reading a field whose text runs to the end of the string (no further
semicolon) returns the rest of the string and the end position. -/
theorem readNextCommand_rest (s X : GoStr) (k : Nat) (hk : k ≤ s.length)
    (hdrop : s.drop k = X) (hX : ∀ b ∈ X, b ≠ 59) :
    readNextCommand s k = (X, s.length) := by
  have hall : ∀ j b, k ≤ j → s[j]? = some b → (b != semi) = true := by
    intro j b hj hb
    have hx : X[j - k]? = some b := by
      rw [← hdrop, List.getElem?_drop]
      rwa [show k + (j - k) = j by omega]
    have hmem : b ∈ X := List.getElem?_mem hx
    simpa [semi] using hX b hmem
  have hsw : scanWhile (fun b => b != semi) s k = s.length :=
    scanWhile_eq_length _ _ _ hk hall
  unfold readNextCommand
  rw [hsw, if_neg (by omega)]
  have hlen : s.length - k = X.length := by
    rw [← hdrop, List.length_drop]
  rw [hdrop, hlen, List.take_length]

/-- `parseSetColor` on a final field that is neither `5` nor `2` (and contains
no semicolon) returns the empty tag and consumes the rest of the string. -/
theorem parseSetColor_unknown (s X : GoStr) (k sp : Nat) (cmd : GoStr)
    (hk : k ≤ s.length) (hdrop : s.drop k = X)
    (hX : ∀ b ∈ X, b ≠ 59) (h5 : X ≠ [53]) (h2 : X ≠ [50]) :
    parseSetColor s sp cmd k = some ([], s.length) := by
  simp only [parseSetColor, readNextCommand_rest s X k hk hdrop hX]
  rw [if_neg (by simpa using h5), if_neg (by simpa using h2)]

/-! ## Claims -/

/-- The truncated extended-color parameter text `38;5` makes `parseSetColor`
slice out of bounds. -/
theorem sgr_trunc5_none : parseSGR [51, 56, 59, 53] [] [] = none := by
  simp [parseSGR, sgrLoop, readNextCommand, parseSetColor, goSlice, scanWhile,
    scanWhileAux, scanCond, semi]

/-- The truncated extended-color parameter text `38;2;1` makes `parseSetColor`
slice out of bounds. -/
theorem sgr_trunc2_none : parseSGR [51, 56, 59, 50, 59, 49] [] [] = none := by
  simp [parseSGR, sgrLoop, readNextCommand, parseSetColor, goSlice, scanWhile,
    scanWhileAux, scanCond, semi]

/-- Driving the full input `ESC [ 3 8 ; 5 m` through the resumable tokenizer
reaches the out-of-bounds slice: the run panics. -/
theorem panic_tokens_none : ParseAllNext [27, 91, 51, 56, 59, 53, 109] = none := by
  have hesc : parseASCIIEscapeCode [27, 91, 51, 56, 59, 53, 109] [] [] = none := by
    simp [parseASCIIEscapeCode, csiCommand, csiInterEnd, csiParamEnd, scanWhile,
      scanWhileAux, scanCond, isParamByte, isIntermediateByte, goSlice, sgr_trunc5_none]
  have hnext : (NewStringTokenizer [27, 91, 51, 56, 59, 53, 109]).Next = none := by
    simp [StringTokenizer.Next, NewStringTokenizer, scanPlain, scanPlainAux,
      isEscStart, hesc]
  exact tokens_none hnext

/-- C1: the claim says tokenization never fails and every slice in
`parseSGR`/`parseSetColor` is in bounds, in particular for the truncated
extended-color texts `38;5` and `38;2;1`. This theorem shows the opposite:
on exactly those SGR parameter texts, and on the full input `ESC [ 3 8 ; 5 m`
driven through the tokenizer, the slice `sgr[startPos : ...]` in
`parseSetColor` runs past the end of the string, i.e. the Go code panics
(`none` in this embedding). -/
theorem C1_truncated_extended_color_panics :
    parseSGR [51, 56, 59, 53] [] [] = none ∧
    parseSGR [51, 56, 59, 50, 59, 49] [] [] = none ∧
    ParseAllNext [27, 91, 51, 56, 59, 53, 109] = none :=
  ⟨sgr_trunc5_none, sgr_trunc2_none, panic_tokens_none⟩

/-- C2 counterexample: resolving the SGR parameter text `0` (byte 48) from the
prior state `(31, 42)` does NOT reset the colors — `0` matches no branch of
`parseSGR`'s dispatch and is skipped as an unknown command, so the prior state
is returned unchanged, contradicting the claim that `0` resets both colors. -/
theorem C2_counterexample_zero_not_reset :
    parseSGR [48] [51, 49] [52, 50] = some ([51, 49], [52, 50]) ∧
      ¬parseSGR [48] [51, 49] [52, 50] = some ([], []) := by
  have h : parseSGR [48] [51, 49] [52, 50] = some ([51, 49], [52, 50]) := by
    simp [parseSGR, sgrLoop, readNextCommand, parseSetColor, goSlice, scanWhile,
      scanWhileAux, scanCond, semi]
  refine ⟨h, ?_⟩
  rw [h]
  simp

/-- C2 (amended): for every prior color pair, resolving the empty SGR
parameter text resets both colors, resolving `1` (byte 49) resets both
colors, but resolving `0` (byte 48) is an unrecognized no-op that leaves
both colors unchanged. -/
theorem C2_sgr_reset (F B : GoStr) :
    parseSGR [] F B = some ([], []) ∧
    parseSGR [49] F B = some ([], []) ∧
    parseSGR [48] F B = some (F, B) := by
  refine ⟨by simp [parseSGR], ?_, ?_⟩
  · simp [parseSGR, sgrLoop, readNextCommand, parseSetColor, goSlice, scanWhile,
      scanWhileAux, scanCond, semi]
  · simp [parseSGR, sgrLoop, readNextCommand, parseSetColor, goSlice, scanWhile,
      scanWhileAux, scanCond, semi]

/-- C3 counterexample: resolving the field sequence `38;7` (a malformed
extended foreground, since `7` is neither `5` nor `2`) from prior foreground
`31` does NOT leave the foreground unchanged: `parseSetColor` returns the
empty tag, so the foreground is cleared to the empty string. -/
theorem C3_counterexample_38_7_clears :
    parseSGR [51, 56, 59, 55] [51, 49] [52, 50] = some ([], [52, 50]) ∧
      ¬parseSGR [51, 56, 59, 55] [51, 49] [52, 50] = some ([51, 49], [52, 50]) := by
  have h : parseSGR [51, 56, 59, 55] [51, 49] [52, 50] = some ([], [52, 50]) := by
    simp [parseSGR, sgrLoop, readNextCommand, parseSetColor, goSlice, scanWhile,
      scanWhileAux, scanCond, semi]
  refine ⟨h, ?_⟩
  rw [h]
  simp

set_option maxHeartbeats 1000000 in
/-- C3 (amended): for every prior state and every terminal field text `X`
(no semicolons) that is neither `5` nor `2`, resolving `38;X` CLEARS the
foreground to the empty string (rather than leaving it unchanged), and leaves
the background alone; symmetrically `48;X` clears the background. -/
theorem C3_malformed_extended_clears (F B X : GoStr) (hX : ∀ b ∈ X, b ≠ 59)
    (h5 : X ≠ [53]) (h2 : X ≠ [50]) :
    parseSGR (51 :: 56 :: 59 :: X) F B = some ([], B) ∧
    parseSGR (52 :: 56 :: 59 :: X) F B = some (F, []) := by
  constructor
  · have hsw : scanWhile (fun b => b != semi) (51 :: 56 :: 59 :: X) 0 = 2 := by
      rw [scanWhile_step (b := 51) (by simp) (by decide),
        scanWhile_step (b := 56) (by simp) (by decide),
        scanWhile_stop (b := 59) (by simp) (by decide)]
    have hrc0 : readNextCommand (51 :: 56 :: 59 :: X) 0 = ([51, 56], 3) := by
      unfold readNextCommand
      rw [hsw, if_pos (by simp)]
      simp
    have hpsc : parseSetColor (51 :: 56 :: 59 :: X) 0 [51, 56] 3 =
        some ([], X.length + 3) := by
      have := parseSetColor_unknown (51 :: 56 :: 59 :: X) X 3 0 [51, 56]
        (by simp) rfl hX h5 h2
      simpa using this
    unfold parseSGR
    rw [if_neg (by simp)]
    unfold sgrLoop
    rw [dif_pos (by simp)]
    simp only [hrc0]
    norm_num
    split
    · rename_i hsc
      rw [hrc0] at hsc
      simp only at hsc
      rw [hpsc] at hsc
      exact Option.noConfusion hsc
    · rename_i r hsc
      rw [hrc0] at hsc
      simp only at hsc
      rw [hpsc] at hsc
      injection hsc with hsc
      subst hsc
      exact sgrLoop_term (by simp)
  · have hsw : scanWhile (fun b => b != semi) (52 :: 56 :: 59 :: X) 0 = 2 := by
      rw [scanWhile_step (b := 52) (by simp) (by decide),
        scanWhile_step (b := 56) (by simp) (by decide),
        scanWhile_stop (b := 59) (by simp) (by decide)]
    have hrc0 : readNextCommand (52 :: 56 :: 59 :: X) 0 = ([52, 56], 3) := by
      unfold readNextCommand
      rw [hsw, if_pos (by simp)]
      simp
    have hpsc : parseSetColor (52 :: 56 :: 59 :: X) 0 [52, 56] 3 =
        some ([], X.length + 3) := by
      have := parseSetColor_unknown (52 :: 56 :: 59 :: X) X 3 0 [52, 56]
        (by simp) rfl hX h5 h2
      simpa using this
    unfold parseSGR
    rw [if_neg (by simp)]
    unfold sgrLoop
    rw [dif_pos (by simp)]
    simp only [hrc0]
    norm_num
    split
    · rename_i hsc
      rw [hrc0] at hsc
      simp only at hsc
      rw [hpsc] at hsc
      exact Option.noConfusion hsc
    · rename_i r hsc
      rw [hrc0] at hsc
      simp only at hsc
      rw [hpsc] at hsc
      injection hsc with hsc
      subst hsc
      exact sgrLoop_term (by simp)

/-- C3 witness: the amended theorem applied at `X = 7`, `F = 31`, `B = 42`. -/
theorem C3_malformed_extended_clears_witness :
    parseSGR (51 :: 56 :: 59 :: [55]) [51, 49] [52, 50] = some ([], [52, 50]) ∧
    parseSGR (52 :: 56 :: 59 :: [55]) [51, 49] [52, 50] = some ([51, 49], []) :=
  C3_malformed_extended_clears [51, 49] [52, 50] [55] (by decide) (by decide) (by decide)

theorem goSlice_all (s : GoStr) : goSlice s 0 s.length = some s := by
  unfold goSlice
  simp

set_option maxHeartbeats 1000000 in
/-- C9: color-tag round-trip. Resolving the RGB field text `38;2;0;63;255`
from any prior state yields that exact byte string as the foreground tag, and
resolving the palette form `38;5;N` (for any final field `N` without
semicolons) yields the exact bytes `38;5;N` verbatim — `parseSetColor` slices
the tag out of the original input rather than re-serializing it. -/
theorem C9_color_tag_roundtrip (F B N : GoStr) (hN : ∀ b ∈ N, b ≠ 59) :
    parseSGR [51, 56, 59, 50, 59, 48, 59, 54, 51, 59, 50, 53, 53] F B =
      some ([51, 56, 59, 50, 59, 48, 59, 54, 51, 59, 50, 53, 53], B) ∧
    parseSGR (51 :: 56 :: 59 :: 53 :: 59 :: N) F B =
      some (51 :: 56 :: 59 :: 53 :: 59 :: N, B) := by
  constructor
  · simp [parseSGR, sgrLoop, readNextCommand, parseSetColor, goSlice, scanWhile,
      scanWhileAux, scanCond, semi]
  · have hsw : scanWhile (fun b => b != semi) (51 :: 56 :: 59 :: 53 :: 59 :: N) 0 = 2 := by
      rw [scanWhile_step (b := 51) (by simp) (by decide),
        scanWhile_step (b := 56) (by simp) (by decide),
        scanWhile_stop (b := 59) (by simp) (by decide)]
    have hrc0 : readNextCommand (51 :: 56 :: 59 :: 53 :: 59 :: N) 0 = ([51, 56], 3) := by
      unfold readNextCommand
      rw [hsw, if_pos (by simp)]
      simp
    have hsw2 : scanWhile (fun b => b != semi) (51 :: 56 :: 59 :: 53 :: 59 :: N) 3 = 4 := by
      rw [scanWhile_step (b := 53) (by simp) (by decide),
        scanWhile_stop (b := 59) (by simp) (by decide)]
    have hrt : readNextCommand (51 :: 56 :: 59 :: 53 :: 59 :: N) 3 = ([53], 5) := by
      unfold readNextCommand
      rw [hsw2, if_pos (by simp)]
      simp
    have hrc5 : readNextCommand (51 :: 56 :: 59 :: 53 :: 59 :: N) 5 =
        (N, (51 :: 56 :: 59 :: 53 :: 59 :: N : GoStr).length) :=
      readNextCommand_rest _ N 5 (by simp) rfl hN
    have hpsc : parseSetColor (51 :: 56 :: 59 :: 53 :: 59 :: N) 0 [51, 56] 3 =
        some (51 :: 56 :: 59 :: 53 :: 59 :: N,
              (51 :: 56 :: 59 :: 53 :: 59 :: N : GoStr).length) := by
      unfold parseSetColor
      rw [hrt]
      rw [if_pos rfl]
      rw [hrc5]
      dsimp only
      have harith : (0 + ([51, 56] : GoStr).length + 1 + ([53] : GoStr).length + 1 + N.length)
          = (51 :: 56 :: 59 :: 53 :: 59 :: N : GoStr).length := by
        simp
        omega
      rw [harith, goSlice_all]
    unfold parseSGR
    rw [if_neg (by simp)]
    unfold sgrLoop
    rw [dif_pos (by simp)]
    simp only [hrc0]
    norm_num
    split
    · rename_i hsc
      rw [hrc0] at hsc
      simp only at hsc
      rw [hpsc] at hsc
      exact Option.noConfusion hsc
    · rename_i r hsc
      rw [hrc0] at hsc
      simp only at hsc
      rw [hpsc] at hsc
      injection hsc with hsc
      subst hsc
      exact sgrLoop_term (by simp)

/-- C9 witness: the round-trip theorem applied at `N = 123`, empty prior
state: both the RGB tag and the palette tag `38;5;123` reproduce the input
field text byte-for-byte. -/
theorem C9_color_tag_roundtrip_witness :
    parseSGR [51, 56, 59, 50, 59, 48, 59, 54, 51, 59, 50, 53, 53] [] [] =
      some ([51, 56, 59, 50, 59, 48, 59, 54, 51, 59, 50, 53, 53], []) ∧
    parseSGR (51 :: 56 :: 59 :: 53 :: 59 :: [49, 50, 51]) [] [] =
      some (51 :: 56 :: 59 :: 53 :: 59 :: [49, 50, 51], []) :=
  C9_color_tag_roundtrip [] [] [49, 50, 51] (by decide)

theorem lt_length_of_getElem? {l : GoStr} {j b : Nat} (h : l[j]? = some b) :
    j < l.length := by
  by_contra hge
  rw [List.getElem?_eq_none (by omega)] at h
  exact Option.noConfusion h

/-- C4 counterexample: on the input `ESC [ SP 0` the parameter scan stops at
the space, the intermediate scan consumes the space, and the byte `0` (0x30)
at the final position is then consumed as the command byte — all four bytes
are in the content — even though 0x30 is outside the claimed final-byte range
0x40–0x7E (the code tests `>= 40` in decimal, i.e. 0x28). -/
theorem C4_counterexample_0x30_final_consumed :
    parseASCIIEscapeCode [27, 91, 32, 48] [] [] =
      some { type_ := .EscapeCode, Content := [27, 91, 32, 48], FG := [], BG := [] } ∧
    ([27, 91, 32, 48] : GoStr)[csiInterEnd [27, 91, 32, 48]]? = some 48 ∧
    ¬(64 ≤ 48 ∧ 48 ≤ 126) := by
  refine ⟨?_, by decide, by decide⟩
  decide

/-- C4 (amended): after the parameter and intermediate scans, the next byte
is consumed as the single final command byte iff it lies in the range
40–126 (0x28–0x7E; the source compares with decimal `40`, not 0x40, and a
parameter byte 0x30–0x3F following an intermediate run does land there);
otherwise, including at end of input, no final byte is consumed, the command
is zero, the token still closes at that position and the colors pass
through. -/
theorem C4_final_byte_rule (str prevFG prevBG : GoStr)
    (h0 : str[0]? = some 27) (h1 : str[1]? = some 91) :
    (∀ b, str[csiInterEnd str]? = some b → 40 ≤ b → b ≤ 126 →
       (∀ tok, parseASCIIEscapeCode str prevFG prevBG = some tok →
          tok.Content = str.take (csiInterEnd str + 1)) ∧
       (¬b = 109 →
          parseASCIIEscapeCode str prevFG prevBG =
            some { type_ := .EscapeCode, Content := str.take (csiInterEnd str + 1),
                   FG := prevFG, BG := prevBG })) ∧
    ((∀ b, str[csiInterEnd str]? = some b → b < 40 ∨ 126 < b) →
       parseASCIIEscapeCode str prevFG prevBG =
         some { type_ := .EscapeCode, Content := str.take (csiInterEnd str),
                FG := prevFG, BG := prevBG }) := by
  have h2len : 2 ≤ str.length := lt_length_of_getElem? h1
  have hi2 : csiInterEnd str ≤ str.length :=
    scanWhile_le _ _ _ (scanWhile_le _ _ _ h2len)
  constructor
  · intro b hb h40 h126
    have hcsi : csiCommand str = (b, csiInterEnd str + 1) := by
      unfold csiCommand
      rw [hb]
      dsimp only
      rw [if_pos ⟨h40, h126⟩]
    have hlt : csiInterEnd str < str.length := lt_length_of_getElem? hb
    constructor
    · intro tok htok
      obtain ⟨-, hc, -, -⟩ := parseASCIIEscapeCode_content htok
      rw [hc, hcsi]
    · intro hnm
      unfold parseASCIIEscapeCode
      rw [hcsi]
      dsimp only
      have hslice : goSlice str 0 (csiInterEnd str + 1) =
          some (str.take (csiInterEnd str + 1)) := by
        unfold goSlice
        rw [if_pos ⟨by omega, by omega⟩]
        simp
      rw [hslice]
      dsimp only
      rw [if_neg hnm]
  · intro hnb
    have hcsi : csiCommand str = (0, csiInterEnd str) := by
      unfold csiCommand
      rcases hgb : str[csiInterEnd str]? with _ | b
      · rfl
      · dsimp only
        rw [if_neg ?_]
        intro hc
        rcases hnb b hgb with h | h <;> omega
    unfold parseASCIIEscapeCode
    rw [hcsi]
    dsimp only
    have hslice : goSlice str 0 (csiInterEnd str) =
        some (str.take (csiInterEnd str)) := by
      unfold goSlice
      rw [if_pos ⟨by omega, by omega⟩]
      simp
    rw [hslice]
    dsimp only
    rw [if_neg (by omega)]

/-- C4 witness: on `ESC [ 1 C` the final byte `C` (0x43) is consumed — the
content is all four bytes and the colors pass through; on `ESC [ 1 LF` the
byte `LF` (10 < 40) at the final position is not consumed and the token
closes before it. -/
theorem C4_final_byte_rule_witness :
    parseASCIIEscapeCode [27, 91, 49, 67] [] [] =
      some { type_ := .EscapeCode, Content := [27, 91, 49, 67], FG := [], BG := [] } ∧
    parseASCIIEscapeCode [27, 91, 49, 10] [] [] =
      some { type_ := .EscapeCode, Content := [27, 91, 49], FG := [], BG := [] } := by
  constructor
  · have h := ((C4_final_byte_rule [27, 91, 49, 67] [] [] (by decide) (by decide)).1
      67 (by decide) (by decide) (by decide)).2 (by decide)
    exact h
  · have h := (C4_final_byte_rule [27, 91, 49, 10] [] [] (by decide) (by decide)).2 ?_
    · exact h
    · intro b hb
      have h10 : ([27, 91, 49, 10] : GoStr)[csiInterEnd [27, 91, 49, 10]]? = some 10 := by
        decide
      rw [h10] at hb
      injection hb with hb
      omega

/-- An OSC terminator at position `j`: either a BEL byte at `j`, or `j` is the
second byte of an `ESC \` string-terminator pair. -/
def oscTerm (str : GoStr) (j : Nat) : Prop :=
  str[j]? = some 7 ∨ (str[j - 1]? = some 27 ∧ str[j]? = some 92)

theorem oscDone_iff {str : GoStr} {j : Nat} :
    oscDone str j = true ↔ (str.length ≤ j ∨ oscTerm str j) := by
  simp [oscDone, oscTerm, or_assoc]

/-- C8: for every input beginning with `ESC ]`, the OSC scanner returns one
`EscapeCode` token whose foreground and background are the inbound colors
unchanged, and whose content ends inclusive of the first terminator — a BEL
byte or both bytes of the first `ESC \` pair (whichever occurs first after
the 2-byte introducer) — or spans the whole input if no terminator occurs. -/
theorem C8_osc_scan (str prevFG prevBG : GoStr)
    (h0 : str[0]? = some 27) (h1 : str[1]? = some 93) :
    ∃ tok, parseASCIIOSC str prevFG prevBG = some tok ∧
      tok.type_ = .EscapeCode ∧ tok.FG = prevFG ∧ tok.BG = prevBG ∧
      ((∃ j, 2 ≤ j ∧ (∀ k, 2 ≤ k → k < j → ¬oscTerm str k) ∧
         ((str[j]? = some 7 ∧ tok.Content = str.take (j + 1)) ∨
          (str[j - 1]? = some 27 ∧ str[j]? = some 92 ∧
            tok.Content = str.take (j + 1)))) ∨
       ((∀ k, 2 ≤ k → k < str.length → ¬oscTerm str k) ∧ tok.Content = str)) := by
  have h2len : 2 ≤ str.length := lt_length_of_getElem? h1
  have hge : 2 ≤ oscScan str 2 := oscScan_ge str 2
  have hle : oscScan str 2 ≤ str.length := oscScan_le str 2 h2len
  have hmin : ∀ k, 2 ≤ k → k < oscScan str 2 → ¬oscTerm str k := by
    intro k hk1 hk2 hterm
    have hdone := oscScan_min str 2 k hk1 hk2
    rw [Bool.eq_false_iff] at hdone
    exact hdone (oscDone_iff.mpr (Or.inr hterm))
  by_cases hlt : oscScan str 2 < str.length
  · have hterm : oscTerm str (oscScan str 2) := by
      have hdone := oscScan_done str 2
      rcases oscDone_iff.mp hdone with h | h
      · omega
      · exact h
    have hslice : goSlice str 0 (oscScan str 2 + 1) =
        some (str.take (oscScan str 2 + 1)) := by
      unfold goSlice
      rw [if_pos ⟨by omega, by omega⟩]
      simp
    refine ⟨{ type_ := .EscapeCode, Content := str.take (oscScan str 2 + 1),
              FG := prevFG, BG := prevBG }, ?_, rfl, rfl, rfl, ?_⟩
    · unfold parseASCIIOSC
      rw [if_pos hlt, hslice]
    · refine Or.inl ⟨oscScan str 2, hge, hmin, ?_⟩
      rcases hterm with h | h
      · exact Or.inl ⟨h, rfl⟩
      · exact Or.inr ⟨h.1, h.2, rfl⟩
  · have heq : oscScan str 2 = str.length := by omega
    have hslice : goSlice str 0 (oscScan str 2) = some str := by
      rw [heq]
      exact goSlice_all str
    refine ⟨{ type_ := .EscapeCode, Content := str, FG := prevFG, BG := prevBG },
      ?_, rfl, rfl, rfl, ?_⟩
    · unfold parseASCIIOSC
      rw [if_neg hlt, hslice]
    · refine Or.inr ⟨?_, rfl⟩
      intro k hk1 hk2
      exact hmin k hk1 (by omega)

/-- C8 witness: on the input `ESC ] a BEL b` the scanner consumes through the
BEL (position 3) inclusive and passes the inbound colors `31`/`42` through. -/
theorem C8_osc_scan_witness :
    ∃ tok, parseASCIIOSC [27, 93, 97, 7, 98] [51, 49] [52, 50] = some tok ∧
      tok.type_ = .EscapeCode ∧ tok.FG = [51, 49] ∧ tok.BG = [52, 50] ∧
      ((∃ j, 2 ≤ j ∧ (∀ k, 2 ≤ k → k < j → ¬oscTerm [27, 93, 97, 7, 98] k) ∧
         ((([27, 93, 97, 7, 98] : GoStr)[j]? = some 7 ∧
            tok.Content = ([27, 93, 97, 7, 98] : GoStr).take (j + 1)) ∨
          (([27, 93, 97, 7, 98] : GoStr)[j - 1]? = some 27 ∧
            ([27, 93, 97, 7, 98] : GoStr)[j]? = some 92 ∧
            tok.Content = ([27, 93, 97, 7, 98] : GoStr).take (j + 1)))) ∨
       ((∀ k, 2 ≤ k → k < ([27, 93, 97, 7, 98] : GoStr).length →
          ¬oscTerm [27, 93, 97, 7, 98] k) ∧ tok.Content = [27, 93, 97, 7, 98])) :=
  C8_osc_scan [27, 93, 97, 7, 98] [51, 49] [52, 50] (by decide) (by decide)

/-- The batch ASCII pass on `a BEL b` produces the three-token split
`String(a)`, `ZeroWidth(BEL)`, `String(b)` and consumes all three bytes. -/
theorem parseASCII_bel_scenario :
    parseASCII [97, 7, 98] false [] [] =
      some ([{ type_ := .String, Content := [97], FG := [], BG := [] },
             { type_ := .ZeroWidth, Content := [7], FG := [], BG := [] },
             { type_ := .String, Content := [98], FG := [], BG := [] }], 3) := by
  have s0 : parseASCIIAux [97, 7, 98] false [] [] [] none 0 =
      parseASCIIAux [97, 7, 98] false [] [] [] (some 0) 1 := by
    have h := @parseASCIIAux_plain [97, 7, 98] false [] [] [] none 0 97
      (by decide) (by decide) (by decide) (by decide) (by decide)
    simpa using h
  have hfin1 : finishStringToken [97, 7, 98] (some 0) 1 [] [] [] =
      some [{ type_ := .String, Content := [97], FG := [], BG := [] }] := by decide
  have hsl : goSlice [97, 7, 98] 1 2 = some [7] := by decide
  have s1 : parseASCIIAux [97, 7, 98] false [] [] [] (some 0) 1 =
      parseASCIIAux [97, 7, 98] false [] []
        [{ type_ := .String, Content := [97], FG := [], BG := [] },
         { type_ := .ZeroWidth, Content := [7], FG := [], BG := [] }] none 2 := by
    rw [parseASCIIAux_bel (by decide), hfin1]
    dsimp only
    rw [hsl]
    rfl
  have s2 : parseASCIIAux [97, 7, 98] false [] []
        [{ type_ := .String, Content := [97], FG := [], BG := [] },
         { type_ := .ZeroWidth, Content := [7], FG := [], BG := [] }] none 2 =
      parseASCIIAux [97, 7, 98] false [] []
        [{ type_ := .String, Content := [97], FG := [], BG := [] },
         { type_ := .ZeroWidth, Content := [7], FG := [], BG := [] }] (some 2) 3 := by
    have h := @parseASCIIAux_plain [97, 7, 98] false [] []
      [{ type_ := .String, Content := [97], FG := [], BG := [] },
       { type_ := .ZeroWidth, Content := [7], FG := [], BG := [] }] none 2 98
      (by decide) (by decide) (by decide) (by decide) (by decide)
    simpa using h
  have s3 : parseASCIIAux [97, 7, 98] false [] []
        [{ type_ := .String, Content := [97], FG := [], BG := [] },
         { type_ := .ZeroWidth, Content := [7], FG := [], BG := [] }] (some 2) 3 =
      some ([{ type_ := .String, Content := [97], FG := [], BG := [] },
             { type_ := .ZeroWidth, Content := [7], FG := [], BG := [] },
             { type_ := .String, Content := [98], FG := [], BG := [] }], 3) := by
    rw [parseASCIIAux_none (by decide)]
    decide
  show parseASCIIAux [97, 7, 98] false [] [] [] none 0 = _
  rw [s0, s1, s2, s3]

/-- The resumable tokenizer on `a BEL b` produces a single plain-text token
containing all three bytes, the BEL included. -/
theorem nextStream_bel :
    ParseAllNext [97, 7, 98] =
      some [{ type_ := .String, Content := [97, 7, 98], FG := [], BG := [] }] := by
  have h1 : (NewStringTokenizer [97, 7, 98]).Next =
      some (true, { token := { type_ := .String, Content := [97, 7, 98], FG := [], BG := [] },
                    input := [97, 7, 98], position := 3 }) := by decide
  have h2 : ({ token := { type_ := .String, Content := [97, 7, 98], FG := [], BG := [] },
               input := [97, 7, 98], position := 3 } : StringTokenizer).Next =
      some (false, { token := { type_ := .String, Content := [97, 7, 98], FG := [], BG := [] },
                     input := [97, 7, 98], position := 3 }) := by decide
  show (NewStringTokenizer [97, 7, 98]).tokens = _
  rw [tokens_true h1, tokens_false h2]
  rfl

/-- C5 counterexample: `StringTokenizer.Next` has no BEL branch — tokenizing
`a BEL b` with the resumable tokenizer yields one plain-text token containing
the BEL, not the claimed `PlainText, ZeroWidth(1), PlainText` split. -/
theorem C5_counterexample_next_folds_bel :
    ParseAllNext [97, 7, 98] =
      some [{ type_ := .String, Content := [97, 7, 98], FG := [], BG := [] }] ∧
    ¬ParseAllNext [97, 7, 98] =
      some [{ type_ := .String, Content := [97], FG := [], BG := [] },
            { type_ := .ZeroWidth, Content := [7], FG := [], BG := [] },
            { type_ := .String, Content := [98], FG := [], BG := [] }] := by
  refine ⟨nextStream_bel, ?_⟩
  rw [nextStream_bel]
  simp

/-- C5 (amended): it is the batch ASCII pass (`parseASCII`), not the
resumable `StringTokenizer.Next`, that handles BEL: with no pending text run
it appends a single `ZeroWidth` token whose content is exactly the BEL byte
and advances the cursor by 1, and a BEL amid plain text yields the
`String, ZeroWidth(1), String` split; `StringTokenizer.Next` has no BEL case
and folds the byte into the plain-text run. -/
theorem C5_bel_zero_width :
    (∀ (str : GoStr) (force : Bool) (fg bg : GoStr) (tokens : List AnsiToken) (i : Nat),
        str[i]? = some 7 →
        parseASCIIAux str force fg bg tokens none i =
          parseASCIIAux str force fg bg
            (tokens ++ [{ type_ := .ZeroWidth, Content := [7], FG := fg, BG := bg }])
            none (i + 1)) ∧
    parseASCII [97, 7, 98] false [] [] =
      some ([{ type_ := .String, Content := [97], FG := [], BG := [] },
             { type_ := .ZeroWidth, Content := [7], FG := [], BG := [] },
             { type_ := .String, Content := [98], FG := [], BG := [] }], 3) ∧
    ParseAllNext [97, 7, 98] =
      some [{ type_ := .String, Content := [97, 7, 98], FG := [], BG := [] }] :=
  ⟨fun str force fg bg tokens i hg => parseASCIIAux_bel_step hg,
   parseASCII_bel_scenario, nextStream_bel⟩

/-- C5 witness: the amended BEL step applied to the one-byte input `BEL` at
cursor 0 with an empty accumulator. -/
theorem C5_bel_zero_width_witness :
    parseASCIIAux [7] false [] [] [] none 0 =
      parseASCIIAux [7] false [] []
        [{ type_ := .ZeroWidth, Content := [7], FG := [], BG := [] }] none 1 :=
  C5_bel_zero_width.1 [7] false [] [] [] 0 (by decide)

/-- The resumable tokenizer on the single byte `a` yields one string token. -/
theorem nextStream_single_a :
    ParseAllNext [97] =
      some [{ type_ := .String, Content := [97], FG := [], BG := [] }] := by
  have h1 : (NewStringTokenizer [97]).Next =
      some (true, { token := { type_ := .String, Content := [97], FG := [], BG := [] },
                    input := [97], position := 1 }) := by decide
  have h2 : ({ token := { type_ := .String, Content := [97], FG := [], BG := [] },
               input := [97], position := 1 } : StringTokenizer).Next =
      some (false, { token := { type_ := .String, Content := [97], FG := [], BG := [] },
                     input := [97], position := 1 }) := by decide
  show (NewStringTokenizer [97]).tokens = _
  rw [tokens_true h1, tokens_false h2]
  rfl

/-- C6 counterexample: on the input `ESC [ 3 8 ; 5 m` the run of `Next`
panics, so no token sequence is produced at all — in particular none whose
contents concatenate to the input, contradicting the claim for every input. -/
theorem C6_counterexample_panic_input :
    ¬∃ ts, ParseAllNext [27, 91, 51, 56, 59, 53, 109] = some ts ∧
      concatContent ts = [27, 91, 51, 56, 59, 53, 109] := by
  rintro ⟨ts, hts, -⟩
  rw [panic_tokens_none] at hts
  exact Option.noConfusion hts

/-- C6 (amended): whenever a tokenization pass completes without a panic, its
tokens are contiguous, in source order, and their contents concatenate to the
input byte-for-byte — for the resumable tokenizer the whole input, for the
batch ASCII pass the consumed prefix. -/
theorem C6_reconstruction :
    (∀ (input : GoStr) (ts : List AnsiToken),
        ParseAllNext input = some ts → concatContent ts = input) ∧
    (∀ (str : GoStr) (force : Bool) (fg bg : GoStr) (ts : List AnsiToken) (n : Nat),
        parseASCII str force fg bg = some (ts, n) → concatContent ts = str.take n) := by
  constructor
  · intro input ts h
    unfold ParseAllNext at h
    have := tokens_concat_aux ((NewStringTokenizer input).input.length)
      (NewStringTokenizer input) ts (by omega) h
    simpa [NewStringTokenizer] using this
  · intro str force fg bg ts n h
    exact parseASCII_concat h

/-- C6 witness: the reconstruction theorem applied to the completed runs on
`a` (resumable tokenizer) and on `a BEL b` (batch ASCII pass, which consumes
all 3 bytes). -/
theorem C6_reconstruction_witness :
    concatContent [{ type_ := .String, Content := [97], FG := [], BG := [] }] = [97] ∧
    concatContent [{ type_ := .String, Content := [97], FG := [], BG := [] },
                   { type_ := .ZeroWidth, Content := [7], FG := [], BG := [] },
                   { type_ := .String, Content := [98], FG := [], BG := [] }] =
      ([97, 7, 98] : GoStr).take 3 :=
  ⟨C6_reconstruction.1 [97] _ nextStream_single_a,
   C6_reconstruction.2 [97, 7, 98] false [] [] _ 3 parseASCII_bel_scenario⟩

/-- Each successful `Next` consumes at least one byte, so a completed run
yields at most `length - position` tokens. -/
theorem tokens_length_le :
    ∀ (n : Nat) (tk : StringTokenizer) (ts : List AnsiToken),
      tk.input.length - tk.position ≤ n → tk.tokens = some ts →
      ts.length ≤ tk.input.length - tk.position := by
  intro n
  induction n with
  | zero =>
    intro tk ts hle h
    rw [tokens_false (next_of_ge (by omega))] at h
    injection h with h1
    subst h1
    simp
  | succ m ih =>
    intro tk ts hle h
    rcases hnext : tk.Next with _ | ⟨b, tk'⟩
    · rw [tokens_none hnext] at h
      cases h
    · cases b
      · rw [tokens_false hnext] at h
        injection h with h1
        subst h1
        simp
      · rw [tokens_true hnext] at h
        rcases hts' : tk'.tokens with _ | ts'
        · rw [hts'] at h
          cases h
        · rw [hts'] at h
          simp only [Option.map_some'] at h
          injection h with h1
          subst h1
          obtain ⟨hlt, hinput, hbound, -⟩ := next_true_facts hnext
          have hpos : tk.position < tk.input.length := by
            by_contra hge
            rw [next_of_ge (by omega)] at hnext
            injection hnext with hnext
            exact absurd (congrArg Prod.fst hnext) (by simp)
          have hrec : ts'.length ≤ tk'.input.length - tk'.position :=
            ih tk' ts' (by rw [hinput]; omega) hts'
          rw [hinput] at hrec
          simp only [List.length_cons]
          omega

/-- C7: a `Next` call that reports a token strictly advances the cursor; a
call that reports `false` happens only with the cursor at or past the end of
the input and leaves the tokenizer unchanged; once exhausted every call
reports `false`; and a completed run produces at most `length - position`
tokens, so tokenization of a finite input terminates. -/
theorem C7_progress_termination :
    (∀ tk tk' : StringTokenizer, tk.Next = some (true, tk') →
        tk.position < tk'.position) ∧
    (∀ tk tk' : StringTokenizer, tk.Next = some (false, tk') →
        tk.input.length ≤ tk.position ∧ tk' = tk) ∧
    (∀ tk : StringTokenizer, tk.input.length ≤ tk.position →
        tk.Next = some (false, tk)) ∧
    (∀ (tk : StringTokenizer) (ts : List AnsiToken), tk.tokens = some ts →
        ts.length ≤ tk.input.length - tk.position) := by
  refine ⟨?_, ?_, ?_, ?_⟩
  · intro tk tk' h
    exact (next_true_facts h).1
  · intro tk tk' h
    have hf := next_false_facts h
    exact ⟨hf.2, hf.1⟩
  · intro tk h
    exact next_of_ge h
  · intro tk ts h
    exact tokens_length_le (tk.input.length - tk.position) tk ts (Nat.le_refl _) h

/-- C7 witness: on the input `a`, the first `Next` advances the cursor from 0
to 1; at the end the tokenizer reports `false` unchanged; and the completed
run yields one token for one byte. -/
theorem C7_progress_termination_witness :
    (NewStringTokenizer [97]).position <
      ({ token := { type_ := .String, Content := [97], FG := [], BG := [] },
         input := [97], position := 1 } : StringTokenizer).position ∧
    (({ token := { type_ := .String, Content := [97], FG := [], BG := [] },
        input := [97], position := 1 } : StringTokenizer).input.length ≤ 1 ∧
      ({ token := { type_ := .String, Content := [97], FG := [], BG := [] },
         input := [97], position := 1 } : StringTokenizer) =
        { token := { type_ := .String, Content := [97], FG := [], BG := [] },
          input := [97], position := 1 }) ∧
    ({ token := { type_ := .String, Content := [97], FG := [], BG := [] },
       input := [97], position := 1 } : StringTokenizer).Next =
      some (false, { token := { type_ := .String, Content := [97], FG := [], BG := [] },
                     input := [97], position := 1 }) ∧
    ([{ type_ := .String, Content := [97], FG := [], BG := [] }] : List AnsiToken).length ≤
      (NewStringTokenizer [97]).input.length - (NewStringTokenizer [97]).position :=
  ⟨C7_progress_termination.1 _ _ (by decide),
   C7_progress_termination.2.1 _ _ (by decide),
   C7_progress_termination.2.2.1 _ (by decide),
   C7_progress_termination.2.2.2 _ _ nextStream_single_a⟩

/-- C10: a `Next` call that reports `false` does not modify the stored
current token, so `Token()` still returns the token of the last successful
`Next`; and on a fresh tokenizer `Token()` is the zero-value token (type
`String`, empty content and colors). -/
theorem C10_exhausted_token_unchanged :
    (∀ tk tk' : StringTokenizer, tk.Next = some (false, tk') →
        tk'.Token = tk.Token) ∧
    (∀ input : GoStr, (NewStringTokenizer input).Token =
        { type_ := .String, Content := [], FG := [], BG := [] }) := by
  constructor
  · intro tk tk' h
    rw [(next_false_facts h).1]
  · intro input
    rfl

/-- C10 witness: an exhausted tokenizer over `a` keeps its token across an
unsuccessful `Next`, and a fresh tokenizer reports the zero-value token. -/
theorem C10_exhausted_token_unchanged_witness :
    ({ token := { type_ := .String, Content := [97], FG := [], BG := [] },
       input := [97], position := 1 } : StringTokenizer).Token =
      ({ token := { type_ := .String, Content := [97], FG := [], BG := [] },
         input := [97], position := 1 } : StringTokenizer).Token ∧
    (NewStringTokenizer [99]).Token =
      { type_ := .String, Content := [], FG := [], BG := [] } :=
  ⟨C10_exhausted_token_unchanged.1
      { token := { type_ := .String, Content := [97], FG := [], BG := [] },
        input := [97], position := 1 }
      { token := { type_ := .String, Content := [97], FG := [], BG := [] },
        input := [97], position := 1 } (by decide),
   C10_exhausted_token_unchanged.2 [99]⟩

end Ansi
